import Mathlib

/-
Verification development for the skeema text-parsing and index-comparison
core. The Go sources are shallowly embedded: the statement splitter
(package fs) over rune lists, and the index model (package tengo) as plain
structures with executable boolean comparisons. Go strings are modelled at
the rune level (the Go loop `for n, c := range contents` iterates runes;
offsets are rune indices, which coincide with Go's byte offsets on the
ASCII inputs used below).
-/

namespace fs

/-- Character constants written via code points so that quote characters
never appear as literals in code. -/
def squote : Char := Char.ofNat 39

/-- The double-quote character. -/
def dquote : Char := Char.ofNat 34

/-- The backquote character. -/
def bquote : Char := Char.ofNat 96

/-- Single-character string holding a single quote. -/
def squoteS : String := String.mk [squote]

/-- Go's unicode.IsSpace: the Unicode White_Space property, written out in
full (Latin-1 cases plus the higher code points carrying White_Space). -/
def goIsSpace (c : Char) : Bool :=
  c == ' ' || c == '\t' || c == '\n' || c == Char.ofNat 11 || c == Char.ofNat 12 ||
  c == '\r' || c == Char.ofNat 0x85 || c == Char.ofNat 0xA0 || c == Char.ofNat 0x1680 ||
  (0x2000 ≤ c.toNat && c.toNat ≤ 0x200A) || c == Char.ofNat 0x2028 || c == Char.ofNat 0x2029 ||
  c == Char.ofNat 0x202F || c == Char.ofNat 0x205F || c == Char.ofNat 0x3000

/-- Go's path.Join for the already-clean inputs used here (dot-segment
cleaning is not modelled; no input below contains dot segments). -/
def pathJoin (dir name : String) : String :=
  if dir = "" then name else dir ++ "/" ++ name

/-- SQLFile represents a file containing zero or more SQL statements
(fields Dir and FileName, as in the source). -/
structure SQLFile where
  Dir : String
  FileName : String
deriving DecidableEq

/-- Path returns the full path of a SQLFile (path.Join of Dir and FileName). -/
def sfPath (sf : SQLFile) : String := pathJoin sf.Dir sf.FileName

/-- One segment of a parsed SQL file, exactly the source's Statement struct. -/
structure Statement where
  File : SQLFile
  LineNo : Nat
  CharNo : Nat
  Text : String
deriving DecidableEq

/-- contents[a:b] on the rune list, as a string. -/
def slice (contents : List Char) (a b : Nat) : String :=
  ((contents.drop a).take (b - a)).asString

/-- The mutable locals of SQLFile.Parse, carried between loop iterations. -/
structure ParseState where
  result : List Statement
  stmt : Statement
  inQuote : Option Char
  inRelevant : Bool
  inLineComment : Bool
  inCComment : Bool
  escapeNext : Bool
  startStatement : Nat
  charNo : Nat
  lineNo : Nat

/-- One iteration of the Parse loop body for rune `c` at offset `n`,
translated branch for branch from the source (the `continue`s become
early results of the if-chain). The interstitial-close branch copies the
source exactly: it does NOT advance startStatement. -/
def parseStep (sf : SQLFile) (contents : List Char) (n : Nat) (c : Char)
    (st : ParseState) : ParseState :=
  let st := { st with charNo := st.charNo + 1 }
  if c = '\n' then
    let st := { st with inLineComment := false, escapeNext := false,
                        lineNo := st.lineNo + 1, charNo := 0 }
    -- Merge trailing newlines onto *previous* statement
    if 0 < st.result.length ∧ st.startStatement = n then
      { st with
        result := st.result.dropLast ++
          [{ st.result.getLastD st.stmt with
             Text := (st.result.getLastD st.stmt).Text ++ "\n" }],
        startStatement := st.startStatement + 1,
        stmt := { st.stmt with LineNo := st.stmt.LineNo + 1, CharNo := 1 } }
    else st
  else if st.inLineComment then st
  else if st.inCComment then
    if c = '/' ∧ contents.getD (n - 1) ' ' = '*' then { st with inCComment := false }
    else st
  else if st.escapeNext then { st with escapeNext := false }
  else match st.inQuote with
  | some q =>
    -- We are in a quote; a doubled quote char escapes the next one
    if c = q then
      if n < contents.length - 1 ∧ contents.getD (n + 1) ' ' = q then
        { st with escapeNext := true }
      else { st with inQuote := none }
    else st
  | none =>
    -- Handle comments
    if c = '#' then { st with inLineComment := true }
    else if 0 < n ∧ c = '*' ∧ contents.getD (n - 1) ' ' = '/' then
      { st with inCComment := true }
    else if 1 < n ∧ c = ' ' ∧ contents.getD (n - 1) ' ' = '-' ∧
            contents.getD (n - 2) ' ' = '-' then
      { st with inLineComment := true }
    else
      -- Move intervening whitespace and comments to a separate "statement"
      let st :=
        if ¬ goIsSpace c ∧ ¬ st.inRelevant then
          let st' :=
            if st.startStatement < n then
              { st with
                result := st.result ++
                  [{ st.stmt with Text := slice contents st.startStatement n }],
                stmt := { File := sf, LineNo := st.lineNo, CharNo := st.charNo,
                          Text := "" } }
            else st
          { st' with inRelevant := true }
        else st
      if c = ';' then
        { st with
          result := st.result ++
            [{ st.stmt with Text := slice contents st.startStatement (n + 1) }],
          stmt := { File := sf, LineNo := st.lineNo, CharNo := st.charNo + 1,
                    Text := "" },
          startStatement := n + 1,
          inRelevant := false }
      else if c = '\\' then { st with escapeNext := true }
      else if c = dquote ∨ c = bquote ∨ c = squote then { st with inQuote := some c }
      else st

/-- The Parse loop: left-to-right over the runes, tracking the offset. -/
def parseLoop (sf : SQLFile) (contents : List Char) :
    List Char → Nat → ParseState → ParseState
  | [], _, st => st
  | c :: rest, n, st => parseLoop sf contents rest (n + 1) (parseStep sf contents n c st)

/-- The initial state of SQLFile.Parse. -/
def initState (sf : SQLFile) : ParseState :=
  { result := []
    stmt := { File := sf, LineNo := 1, CharNo := 1, Text := "" }
    inQuote := none
    inRelevant := false
    inLineComment := false
    inCComment := false
    escapeNext := false
    startStatement := 0
    charNo := 0
    lineNo := 1 }

/-- SQLFile.Parse on in-memory contents (the file read is a collaborator
concern): runs the loop, builds the error value, and keeps any dangling
statement, exactly as the source's epilogue does. -/
def Parse (sf : SQLFile) (contents : String) : List Statement × Option String :=
  let cs := contents.toList
  let fin := parseLoop sf cs cs 0 (initState sf)
  let err : Option String :=
    match fin.inQuote with
    | some q => some ("File " ++ sfPath sf ++ " has unterminated quote " ++ String.mk [q])
    | none =>
      if fin.inCComment then
        some ("File " ++ sfPath sf ++ " has unterminated C-style comment")
      else none
  let lastText := slice cs fin.startStatement cs.length
  let result :=
    if 0 < lastText.length then fin.result ++ [{ fin.stmt with Text := lastText }]
    else fin.result
  (result, err)

/-- Ordered concatenation of the Text of a statement sequence. -/
def concatTexts (l : List Statement) : String :=
  l.foldl (fun acc st => acc ++ st.Text) ""

/-- A concrete file used by the evaluation theorems. -/
def demoFile : SQLFile := { Dir := "/db", FileName := "schema.sql" }

/-- The input of the comment-skipping claim. -/
def inputC2 : String := "-- comment\nSELECT 1;"

/-- The quote-doubling input SELECT 'a''b'; built from the quote constant. -/
def inputC4 : String :=
  "SELECT " ++ squoteS ++ "a" ++ squoteS ++ squoteS ++ "b" ++ squoteS ++ ";"

/-- The unterminated-quote input SELECT 'abc. -/
def inputC5 : String := "SELECT " ++ squoteS ++ "abc"

end fs

namespace tengo

/-- IndexPart represents an individual indexed column or expression
(PrefixLength is a Go uint16; only compared, never arithmetically combined,
so Nat is a faithful carrier here). -/
structure IndexPart where
  ColumnName : String
  Expression : String
  PrefixLength : Nat
  Descending : Bool
deriving DecidableEq

/-- Index represents a single index in a table. The Go field Type is named
Type_ because Type is reserved in Lean. -/
structure Index where
  Name : String
  Parts : List IndexPart
  PrimaryKey : Bool
  Unique : Bool
  Invisible : Bool
  Comment : String
  Type_ : String
  FullTextParser : String
  Attributes : String
deriving DecidableEq

/-- ASCII upper-casing of one character (the attribute keys and values
compared here are ASCII; Go's strings.ToUpper Unicode tables are not
modelled). -/
def charToUpper (c : Char) : Char :=
  if 97 ≤ c.toNat ∧ c.toNat ≤ 122 then Char.ofNat (c.toNat - 32) else c

/-- ASCII lower-casing of one character. -/
def charToLower (c : Char) : Char :=
  if 65 ≤ c.toNat ∧ c.toNat ≤ 90 then Char.ofNat (c.toNat + 32) else c

/-- Go's strings.ToUpper, restricted to ASCII letters. -/
def goToUpper (s : String) : String := (s.toList.map charToUpper).asString

/-- Go's strings.ToLower, restricted to ASCII letters. -/
def goToLower (s : String) : String := (s.toList.map charToLower).asString

/-- Modelled from the spec: stripAnyQuote (referenced by sameAttributes but
not present in the supplied sources) removes one surrounding pair of
matching quote delimiters — single quote, double quote, or backtick — and
leaves any other string unchanged. -/
def stripAnyQuote (input : String) : String :=
  let cs := input.toList
  if 2 ≤ cs.length ∧ cs.headD ' ' = cs.getLastD ' ' ∧
      (cs.headD ' ' = fs.squote ∨ cs.headD ' ' = fs.dquote ∨ cs.headD ' ' = fs.bquote) then
    ((cs.drop 1).dropLast).asString
  else input

/-- Tokenizer accumulator: splits on Unicode whitespace, with the equals
sign always forming its own token. -/
def tokenizeAux : List Char → List Char → List String
  | [], acc => if acc.isEmpty then [] else [acc.reverse.asString]
  | c :: rest, acc =>
    if fs.goIsSpace c then
      if acc.isEmpty then tokenizeAux rest [] else acc.reverse.asString :: tokenizeAux rest []
    else if c = '=' then
      if acc.isEmpty then String.mk [c] :: tokenizeAux rest []
      else acc.reverse.asString :: String.mk [c] :: tokenizeAux rest []
    else tokenizeAux rest (c :: acc)

/-- Modelled from the spec: TokenizeString (called by splitAttributes but not
present in the supplied sources) splits an attribute string into tokens on
whitespace, with = as its own token; quote characters are kept inside their
token as ordinary characters (quoted content containing whitespace or = does
not occur in the attribute strings treated here). -/
def TokenizeString (s : String) : List String :=
  tokenizeAux s.toList []

/-- The token walk of splitAttributes: field alone, or field=value when the
next token is = and a value token follows; bareword fields are upper-cased
(backtick-led fields keep their casing), double-quote-wrapped values are
rewritten to single-quote-wrapped form, and a bare PARTITIONED is dropped.
The fuel argument (always at least the list length at the call site) only
makes the recursion structural; it never runs out. -/
def splitAttrAux : Nat → List String → List String
  | 0, _ => []
  | _ + 1, [] => []
  | fuel + 1, tok :: rest =>
    let field := if tok.toList.headD ' ' = fs.bquote then tok else goToUpper tok
    match rest with
    | eqTok :: v :: rest2 =>
      if eqTok = "=" then
        let entry :=
          if v.toList.headD ' ' = fs.dquote ∧ v.toList.getLastD ' ' = fs.dquote then
            field ++ "=" ++ fs.squoteS ++ ((v.toList.drop 1).dropLast).asString ++ fs.squoteS
          else field ++ "=" ++ v
        entry :: splitAttrAux fuel rest2
      else if field = "PARTITIONED" then splitAttrAux fuel rest
      else field :: splitAttrAux fuel rest
    | _ =>
      if field = "PARTITIONED" then splitAttrAux fuel rest
      else field :: splitAttrAux fuel rest

/-- splitAttributes converts a single attribute string into a list of
individual normalized attributes. -/
def splitAttributes (input : String) : List String :=
  if input = "" then []
  else splitAttrAux (TokenizeString input).length (TokenizeString input)

/-- A Go map[string]string is modelled as an association list kept free of
duplicate keys: insertion removes any previous binding of the key. -/
def mapInsert (m : List (String × String)) (k v : String) : List (String × String) :=
  m.filter (fun kv => kv.1 != k) ++ [(k, v)]

/-- Lookup in the association-list model of a Go map. -/
def mapLookup (m : List (String × String)) (k : String) : Option String :=
  (m.find? (fun kv => kv.1 == k)).map (·.2)

/-- Go's maps.Equal on the association-list model: the two maps bind exactly
the same keys to the same values. -/
def mapsEqual (m1 m2 : List (String × String)) : Bool :=
  m1.all (fun kv => mapLookup m2 kv.1 == some kv.2) &&
  m2.all (fun kv => mapLookup m1 kv.1 == some kv.2)

/-- Go's strings.Cut(s, sep) for the one-character separator =: before and
after the first equals sign, or (s, "") when there is none (the found flag is
discarded by the caller). -/
def cutAux : List Char → Option (List Char × List Char)
  | [] => none
  | c :: rest =>
    if c = '=' then some ([], rest)
    else
      match cutAux rest with
      | some pq => some (c :: pq.1, pq.2)
      | none => none

/-- String-level wrapper of cutAux. -/
def goCutEq (s : String) : String × String :=
  match cutAux s.toList with
  | some pq => (pq.1.asString, pq.2.asString)
  | none => (s, "")

/-- The attrStringToMap closure inside sameAttributes: defaults M=6 and
DISTANCE=euclidean for VECTOR indexes, then each split attribute is cut at
=, the key upper-cased and the value lower-cased after quote stripping. -/
def attrStringToMap (index : Index) : List (String × String) :=
  let base : List (String × String) :=
    if index.Type_ = "VECTOR" then mapInsert (mapInsert [] "M" "6") "DISTANCE" "euclidean"
    else []
  (splitAttributes index.Attributes).foldl
    (fun m kv =>
      let p := goCutEq kv
      mapInsert m (goToUpper (stripAnyQuote p.1)) (goToLower (stripAnyQuote p.2)))
    base

/-- sameAttributes: fast path on identical strings, otherwise semantic map
comparison with defaults. -/
def sameAttributes (idx other : Index) : Bool :=
  if idx.Attributes = other.Attributes then true
  else mapsEqual (attrStringToMap idx) (attrStringToMap other)

/-- sameParts returns true if two Indexes' Parts slices are identical. -/
def sameParts (idx other : Index) : Bool :=
  idx.Parts.length == other.Parts.length &&
  (List.zip idx.Parts other.Parts).all (fun pq => pq.1 == pq.2)

/-- Equivalent returns true if two indexes are functionally equivalent,
ignoring name, comment and visibility. Nil receivers are modelled by none. -/
def Equivalent (idx other : Option Index) : Bool :=
  match idx, other with
  | none, none => true
  | some _, none => false
  | none, some _ => false
  | some a, some b =>
    if a.PrimaryKey ≠ b.PrimaryKey ∨ a.Unique ≠ b.Unique ∨ a.Type_ ≠ b.Type_ ∨
        a.FullTextParser ≠ b.FullTextParser then false
    else sameParts a b && sameAttributes a b

/-- The per-position loop at the end of RedundantTo: column/expression and
direction must match, and the receiver's prefix length may not be more
restrictive than the other's. The second list is always at least as long as
the first when called (guarded by the length comparison before the loop). -/
def partsNotMoreRestrictive : List IndexPart → List IndexPart → Bool
  | [], _ => true
  | _ :: _, [] => true
  | p :: ps, q :: qs =>
    if p.ColumnName ≠ q.ColumnName ∨ p.Expression ≠ q.Expression ∨
        p.Descending ≠ q.Descending then false
    else if 0 < q.PrefixLength ∧ (p.PrefixLength = 0 ∨ q.PrefixLength < p.PrefixLength) then
      false
    else partsNotMoreRestrictive ps qs

/-- RedundantTo returns true if idx is equivalent to, or a strict subset of,
other; translated check for check from the source. -/
def RedundantTo (idx other : Option Index) : Bool :=
  match idx, other with
  | none, _ => false
  | _, none => false
  | some a, some b =>
    if a.PrimaryKey ∨ (a.Unique ∧ ¬ b.Unique) ∨ a.Type_ ≠ b.Type_ ∨
        a.FullTextParser ≠ b.FullTextParser then false
    else if ¬ a.Invisible ∧ b.Invisible then false
    else if a.Unique ∧ b.Unique then sameParts a b
    else if a.Type_ = "VECTOR" then sameParts a b && sameAttributes a b
    else if a.Type_ = "FULLTEXT" ∧ a.Parts.length ≠ b.Parts.length then false
    else if b.Parts.length < a.Parts.length then false
    else partsNotMoreRestrictive a.Parts b.Parts

/-- The last element of a candidate list (Go's list[len(list)-1]; the lists
indexed are never empty at the call sites). -/
def tailD (l : List Int) : Int := l.getLastD 0

/-- Go's copy(dst, src): the first min(len src, len dst) slots of dst are
overwritten by src, the rest keep their old values; the result has dst's
length. -/
def goCopy (dst src : List Int) : List Int :=
  src.take dst.length ++ dst.drop (min src.length dst.length)

/-- Overwrite the final slot of a list (Go's l[len(l)-1] = x). -/
def setLast (l : List Int) (x : Int) : List Int := l.set (l.length - 1) x

/-- The body of the inner loop of longestIncreasingSubsequence at index j:
copy(nextList, thisList) followed by overwriting nextList's final slot. -/
def lisUpdate (cls : List (List Int)) (comp : Int) (j : Nat) : List (List Int) :=
  cls.set (j + 1) (setLast (goCopy (cls.getD (j + 1) []) (cls.getD j [])) comp)

/-- The inner loop, scanning j downward from len-2 and stopping (break) at
the first list whose tail is below comp. -/
def lisScan (cls : List (List Int)) (comp : Int) : Nat → List (List Int)
  | 0 => if tailD (cls.getD 0 []) < comp then lisUpdate cls comp 0 else cls
  | j + 1 =>
    if tailD (cls.getD (j + 1) []) < comp then lisUpdate cls comp (j + 1)
    else lisScan cls comp j

/-- One iteration of the main loop of longestIncreasingSubsequence. The
guard 2 ≤ cls.length is the loop-entry condition j = len-2 ≥ 0 of the
inner loop; the appended list is make(len+1) (zeros) filled by copy and a
final-slot write, exactly as in the source. -/
def lisStep (cls : List (List Int)) (comp : Int) : List (List Int) :=
  if comp < (cls.getD 0 []).headD 0 then
    cls.set 0 ((cls.getD 0 []).set 0 comp)
  else if tailD (cls.getLastD []) < comp then
    cls ++ [setLast (goCopy (List.replicate ((cls.getLastD []).length + 1) 0)
                            (cls.getLastD [])) comp]
  else if 2 ≤ cls.length then lisScan cls comp (cls.length - 2)
  else cls

/-- longestIncreasingSubsequence from the source: inputs of length below two
are returned as-is; otherwise candidate lists are folded over the remaining
elements and the longest candidate is returned. -/
def longestIncreasingSubsequence (input : List Int) : List Int :=
  if input.length < 2 then input
  else
    match input with
    | [] => input
    | x :: rest => (rest.foldl lisStep [[x]]).getLastD []

end tengo


namespace tengo

/-- Fixture part over column a. -/
def partA : IndexPart :=
  { ColumnName := "a", Expression := "", PrefixLength := 0, Descending := false }

/-- Fixture part over column b. -/
def partB : IndexPart :=
  { ColumnName := "b", Expression := "", PrefixLength := 0, Descending := false }

/-- Fixture non-unique single-column BTREE index KEY(a). -/
def btreeA : Index :=
  { Name := "idx_a", Parts := [partA], PrimaryKey := false, Unique := false,
    Invisible := false, Comment := "", Type_ := "BTREE", FullTextParser := "",
    Attributes := "" }

/-- Fixture non-unique two-column BTREE index KEY(a,b). -/
def btreeAB : Index := { btreeA with Name := "idx_ab", Parts := [partA, partB] }

/-- Fixture FULLTEXT index over (a). -/
def ftA : Index := { btreeA with Name := "ft_a", Type_ := "FULLTEXT" }

/-- Fixture FULLTEXT index over (a,b). -/
def ftAB : Index := { btreeAB with Name := "ft_ab", Type_ := "FULLTEXT" }

/-- Fixture unique index UNIQUE(a). -/
def uniqA : Index := { btreeA with Name := "uniq_a", Unique := true }

/-- Fixture unique index UNIQUE(a,b). -/
def uniqAB : Index := { btreeAB with Name := "uniq_ab", Unique := true }

/-- Fixture VECTOR index with no explicit attributes. -/
def vecA : Index := { btreeA with Name := "vec_a", Type_ := "VECTOR" }

/-- The loop invariant of longestIncreasingSubsequence over the elements
seen so far: candidate list k has length k+1, is a strictly increasing
sublist of the input seen so far, candidate tails grow strictly with k, no
strictly increasing sublist is longer than the number of candidates, and
each candidate's tail is the least achievable among strictly increasing
sublists of its length. -/
structure LisInv (seen : List Int) (cls : List (List Int)) : Prop where
  ne : cls ≠ []
  len : ∀ i, i < cls.length → (cls.getD i []).length = i + 1
  sorted : ∀ i, i < cls.length → List.Sorted (· < ·) (cls.getD i [])
  sub : ∀ i, i < cls.length → (cls.getD i []).Sublist seen
  tails : ∀ i j, i < j → j < cls.length →
    tailD (cls.getD i []) < tailD (cls.getD j [])
  best : ∀ s : List Int, s.Sublist seen → List.Sorted (· < ·) s →
    s.length ≤ cls.length
  minTail : ∀ s : List Int, s.Sublist seen → List.Sorted (· < ·) s → s ≠ [] →
    tailD (cls.getD (s.length - 1) []) ≤ tailD s

end tengo

/-
Theorems. The claim theorems below are stated over the embedded
definitions; helper lemmas come first.
-/

namespace fs

/-- After a backslash is consumed outside quotes and comments, the state has
escapeNext set and the quote and comment flags still clear. -/
theorem parseStep_backslash (sf : SQLFile) (contents : List Char) (n : Nat)
    (st : ParseState)
    (hq : st.inQuote = none) (hlc : st.inLineComment = false)
    (hcc : st.inCComment = false) (hesc : st.escapeNext = false) :
    (parseStep sf contents n '\\' st).inQuote = none ∧
    (parseStep sf contents n '\\' st).inLineComment = false ∧
    (parseStep sf contents n '\\' st).inCComment = false ∧
    (parseStep sf contents n '\\' st).escapeNext = true := by
  simp only [parseStep, hq, hlc, hcc, hesc]
  simp [squote, dquote, bquote]
  split_ifs <;> simp_all

/-- A character processed while escapeNext is set (and no quote or comment
is open) leaves the quote and comment flags clear, clears escapeNext, and
does not change the number of closed statements. -/
theorem parseStep_escaped (sf : SQLFile) (contents : List Char) (n : Nat)
    (st : ParseState) (c : Char)
    (hq : st.inQuote = none) (hlc : st.inLineComment = false)
    (hcc : st.inCComment = false) (hesc : st.escapeNext = true) :
    (parseStep sf contents n c st).inQuote = none ∧
    (parseStep sf contents n c st).inLineComment = false ∧
    (parseStep sf contents n c st).inCComment = false ∧
    (parseStep sf contents n c st).escapeNext = false ∧
    (parseStep sf contents n c st).result.length = st.result.length := by
  by_cases hnl : c = '\n'
  · subst hnl
    simp only [parseStep, hq, hlc, hcc, hesc]
    split_ifs with h1 h2 <;> simp_all [List.length_dropLast]
    omega
  · simp only [parseStep, hq, hlc, hcc, hesc]
    simp [hnl]

end fs

/-- C1: the round-trip claim fails on this source: on input " a" the
interstitial close does not advance startStatement, so Parse returns the
texts " " and " a", whose concatenation "  a" duplicates the leading space
instead of reproducing the input. -/
theorem claim_C1 :
    (fs.Parse fs.demoFile " a").1.map (fun s => s.Text) = [" ", " a"] ∧
    fs.concatTexts (fs.Parse fs.demoFile " a").1 = "  a" ∧
    fs.concatTexts (fs.Parse fs.demoFile " a").1 ≠ " a" := by
  decide

/-- C2 counterexample: parsing the comment-then-statement input does not
yield two Statements with the claimed texts — the first hyphen of the
comment marker already begins a relevant segment, so no interstitial
split happens. -/
theorem claim_C2_counterexample :
    (fs.Parse fs.demoFile fs.inputC2).1.map (fun s => s.Text) ≠
      ["-- comment\n", "SELECT 1;"] ∧
    (fs.Parse fs.demoFile fs.inputC2).1.length ≠ 2 := by
  decide

/-- C2 amended: parsing the comment-then-statement input yields exactly one
content Statement whose Text is the entire input, with no error: the
line-comment state is entered only at the space following the two hyphens,
after the first hyphen has already marked the segment relevant. -/
theorem claim_C2 :
    (fs.Parse fs.demoFile fs.inputC2).1.map (fun s => s.Text) = [fs.inputC2] ∧
    (fs.Parse fs.demoFile fs.inputC2).2 = none := by
  decide

/-- C3: after a bare backslash seen outside any quote and outside any
comment, the immediately following character cannot open a quote, close a
quote, start a line or block comment, or terminate a statement, and the
escape flag is cleared after exactly that one character. -/
theorem claim_C3 (sf : fs.SQLFile) (contents : List Char) (n : Nat)
    (st : fs.ParseState) (c2 : Char)
    (hq : st.inQuote = none) (hlc : st.inLineComment = false)
    (hcc : st.inCComment = false) (hesc : st.escapeNext = false) :
    (fs.parseStep sf contents (n + 1) c2
        (fs.parseStep sf contents n '\\' st)).inQuote = none ∧
    (fs.parseStep sf contents (n + 1) c2
        (fs.parseStep sf contents n '\\' st)).inLineComment = false ∧
    (fs.parseStep sf contents (n + 1) c2
        (fs.parseStep sf contents n '\\' st)).inCComment = false ∧
    (fs.parseStep sf contents (n + 1) c2
        (fs.parseStep sf contents n '\\' st)).escapeNext = false ∧
    (fs.parseStep sf contents (n + 1) c2
        (fs.parseStep sf contents n '\\' st)).result.length =
      (fs.parseStep sf contents n '\\' st).result.length := by
  obtain ⟨h1, h2, h3, h4⟩ := fs.parseStep_backslash sf contents n st hq hlc hcc hesc
  exact fs.parseStep_escaped sf contents (n + 1) (fs.parseStep sf contents n '\\' st)
    c2 h1 h2 h3 h4

/-- C3 witness: the escape theorem applied at a concrete state and input,
with the quote character as the escaped character. -/
theorem claim_C3_witness :
    (fs.parseStep fs.demoFile ("\\" ++ fs.squoteS).toList 1 fs.squote
        (fs.parseStep fs.demoFile ("\\" ++ fs.squoteS).toList 0 '\\'
          (fs.initState fs.demoFile))).inQuote = none ∧
    (fs.parseStep fs.demoFile ("\\" ++ fs.squoteS).toList 1 fs.squote
        (fs.parseStep fs.demoFile ("\\" ++ fs.squoteS).toList 0 '\\'
          (fs.initState fs.demoFile))).inLineComment = false ∧
    (fs.parseStep fs.demoFile ("\\" ++ fs.squoteS).toList 1 fs.squote
        (fs.parseStep fs.demoFile ("\\" ++ fs.squoteS).toList 0 '\\'
          (fs.initState fs.demoFile))).inCComment = false ∧
    (fs.parseStep fs.demoFile ("\\" ++ fs.squoteS).toList 1 fs.squote
        (fs.parseStep fs.demoFile ("\\" ++ fs.squoteS).toList 0 '\\'
          (fs.initState fs.demoFile))).escapeNext = false ∧
    (fs.parseStep fs.demoFile ("\\" ++ fs.squoteS).toList 1 fs.squote
        (fs.parseStep fs.demoFile ("\\" ++ fs.squoteS).toList 0 '\\'
          (fs.initState fs.demoFile))).result.length =
      (fs.parseStep fs.demoFile ("\\" ++ fs.squoteS).toList 0 '\\'
        (fs.initState fs.demoFile)).result.length :=
  claim_C3 fs.demoFile ("\\" ++ fs.squoteS).toList 0 (fs.initState fs.demoFile)
    fs.squote rfl rfl rfl rfl

/-- C4: parsing SELECT 'a''b'; yields exactly one content Statement whose
Text is the entire input — the doubled quote keeps the quote open and does
not split the statement — and no error. -/
theorem claim_C4 :
    (fs.Parse fs.demoFile fs.inputC4).1.map (fun s => s.Text) = [fs.inputC4] ∧
    (fs.Parse fs.demoFile fs.inputC4).2 = none := by
  decide

/-- C5: parsing SELECT 'abc returns an error naming the source file and
the single-quote character, and still returns the accumulated Statement
sequence whose only element carries the dangling unterminated text. -/
theorem claim_C5 :
    (fs.Parse fs.demoFile fs.inputC5).2 =
      some ("File " ++ fs.sfPath fs.demoFile ++ " has unterminated quote " ++
        fs.squoteS) ∧
    (fs.Parse fs.demoFile fs.inputC5).1.map (fun s => s.Text) = [fs.inputC5] := by
  decide

namespace tengo

/-- The boolean length-and-zip check used by sameParts is list equality. -/
theorem beq_zip_all_eq {α : Type} [DecidableEq α] :
    ∀ l1 l2 : List α,
      ((l1.length == l2.length) && (List.zip l1 l2).all fun pq => pq.1 == pq.2) = true ↔
        l1 = l2 := by
  intro l1
  induction l1 with
  | nil => intro l2; cases l2 <;> simp
  | cons x xs ih =>
    intro l2
    cases l2 with
    | nil => simp
    | cons y ys =>
      have ih2 := ih ys
      simp at ih2 ⊢
      tauto

/-- sameParts decides equality of the Parts slices. -/
theorem sameParts_eq_iff (a b : Index) : sameParts a b = true ↔ a.Parts = b.Parts :=
  beq_zip_all_eq a.Parts b.Parts

/-- The per-position prefix check always passes when an index is compared
with itself. -/
theorem partsNotMoreRestrictive_refl : ∀ l : List IndexPart,
    partsNotMoreRestrictive l l = true := by
  intro l
  induction l with
  | nil => simp [partsNotMoreRestrictive]
  | cons p ps ih =>
    simp only [partsNotMoreRestrictive]
    split_ifs with h1 h2
    · simp_all
    · omega
    · exact ih

end tengo

/-- C10: the redundancy relation is reflexive on every non-primary-key
index, regardless of uniqueness, type, visibility, prefix lengths, or
attribute string. -/
theorem claim_C10 (idx : tengo.Index) (hpk : idx.PrimaryKey = false) :
    tengo.RedundantTo (some idx) (some idx) = true := by
  have hsp : tengo.sameParts idx idx = true := (tengo.sameParts_eq_iff idx idx).mpr rfl
  have hsa : tengo.sameAttributes idx idx = true := by simp [tengo.sameAttributes]
  simp only [tengo.RedundantTo, hpk]
  split_ifs with h1 h2 h3 h4 h5 h6 <;>
    simp_all [tengo.partsNotMoreRestrictive_refl]

/-- C10 witness: a concrete non-primary-key index is redundant to itself. -/
theorem claim_C10_witness : tengo.RedundantTo (some tengo.btreeA) (some tengo.btreeA) = true :=
  claim_C10 tengo.btreeA rfl

/-- C6 counterexample: two FULLTEXT indexes meeting every hypothesis of the
claim — non-unique, non-primary-key, same type and parser, single shared
part with zero prefix lengths — for which RedundantTo(A,B) is nonetheless
false, because composite FULLTEXT indexes are excluded from left-prefix
reasoning. -/
theorem claim_C6_counterexample :
    tengo.ftA.PrimaryKey = false ∧ tengo.ftAB.PrimaryKey = false ∧
    tengo.ftA.Unique = false ∧ tengo.ftAB.Unique = false ∧
    tengo.ftA.Type_ = tengo.ftAB.Type_ ∧
    tengo.ftA.FullTextParser = tengo.ftAB.FullTextParser ∧
    tengo.ftA.Parts = [tengo.partA] ∧ tengo.ftAB.Parts = [tengo.partA, tengo.partB] ∧
    tengo.partA.PrefixLength = 0 ∧
    tengo.RedundantTo (some tengo.ftA) (some tengo.ftAB) = false := by
  decide

/-- C6 amended: for two non-nil, non-unique, non-primary-key indexes of the
same type and full-text parser, where that type is neither FULLTEXT nor
VECTOR and A is not a visible index compared against an invisible one, if A
has the single part (a) and B has parts (a, b) with a zero prefix length at
the shared position, then RedundantTo(A,B) is true and RedundantTo(B,A) is
false. -/
theorem claim_C6 (A B : tengo.Index) (pa pb : tengo.IndexPart)
    (hApk : A.PrimaryKey = false) (hBpk : B.PrimaryKey = false)
    (hAu : A.Unique = false) (hBu : B.Unique = false)
    (hty : A.Type_ = B.Type_) (hftp : A.FullTextParser = B.FullTextParser)
    (hnft : A.Type_ ≠ "FULLTEXT") (hnvec : A.Type_ ≠ "VECTOR")
    (hvis : ¬ (A.Invisible = false ∧ B.Invisible = true))
    (hA : A.Parts = [pa]) (hB : B.Parts = [pa, pb]) (hpfx : pa.PrefixLength = 0) :
    tengo.RedundantTo (some A) (some B) = true ∧
    tengo.RedundantTo (some B) (some A) = false := by
  constructor
  · simp only [tengo.RedundantTo, hApk, hAu, hty, hftp, hA, hB]
    split_ifs with h1 h2 h3 h4 h5 h6 <;> simp_all
    · simp [tengo.partsNotMoreRestrictive, hpfx]
  · simp only [tengo.RedundantTo, hBpk, hBu, hA, hB]
    split_ifs <;> simp_all

/-- C6 witness: the amended statement applied to the BTREE fixtures KEY(a)
and KEY(a,b). -/
theorem claim_C6_witness :
    tengo.RedundantTo (some tengo.btreeA) (some tengo.btreeAB) = true ∧
    tengo.RedundantTo (some tengo.btreeAB) (some tengo.btreeA) = false :=
  claim_C6 tengo.btreeA tengo.btreeAB tengo.partA tengo.partB rfl rfl rfl rfl rfl rfl
    (by decide) (by decide) (by decide) rfl rfl rfl

/-- C7: for two non-nil unique non-primary-key indexes of the same type,
RedundantTo holds only when the parts are identical element-for-element;
and in particular UNIQUE(a) is not redundant to UNIQUE(a,b). -/
theorem claim_C7 (a b : tengo.Index)
    (hau : a.Unique = true) (hbu : b.Unique = true)
    (hapk : a.PrimaryKey = false) (hbpk : b.PrimaryKey = false)
    (hty : a.Type_ = b.Type_) :
    (tengo.RedundantTo (some a) (some b) = true → a.Parts = b.Parts) ∧
    (∀ pa pb, a.Parts = [pa] → b.Parts = [pa, pb] →
      tengo.RedundantTo (some a) (some b) = false) := by
  constructor
  · intro h
    simp only [tengo.RedundantTo, hapk, hau, hbu, hty] at h
    split_ifs at h <;> first
      | exact (tengo.sameParts_eq_iff a b).mp h
      | simp_all
  · intro pa pb hpa hpb
    simp only [tengo.RedundantTo, hapk, hau, hbu, hty]
    have : tengo.sameParts a b = false := by
      rw [← Bool.not_eq_true]
      intro hc
      have := (tengo.sameParts_eq_iff a b).mp hc
      rw [hpa, hpb] at this
      simp at this
    split_ifs <;> simp_all

/-- C7 witness: the unique-exemption statement applied to the fixtures
UNIQUE(a) and UNIQUE(a,b). -/
theorem claim_C7_witness :
    (tengo.RedundantTo (some tengo.uniqA) (some tengo.uniqAB) = true →
      tengo.uniqA.Parts = tengo.uniqAB.Parts) ∧
    (∀ pa pb, tengo.uniqA.Parts = [pa] → tengo.uniqAB.Parts = [pa, pb] →
      tengo.RedundantTo (some tengo.uniqA) (some tengo.uniqAB) = false) :=
  claim_C7 tengo.uniqA tengo.uniqAB rfl rfl rfl rfl rfl

namespace tengo

/-- stripAnyQuote leaves any string alone whose first character is not a
quote delimiter. -/
theorem stripAnyQuote_id (s : String)
    (h : ¬ (s.toList.headD ' ' = fs.squote ∨ s.toList.headD ' ' = fs.dquote ∨
            s.toList.headD ' ' = fs.bquote)) :
    stripAnyQuote s = s := by
  simp only [stripAnyQuote]
  split_ifs with hc
  · exact absurd (Or.imp_right Or.symm hc.2.2) (by tauto)
  · rfl

/-- cutAux splits at the first equals sign. -/
theorem cutAux_no_eq (k v : List Char) (hk : ∀ c ∈ k, c ≠ '=') :
    cutAux (k ++ '=' :: v) = some (k, v) := by
  induction k with
  | nil => simp [cutAux]
  | cons c cs ih =>
    rw [List.cons_append, cutAux, ih (fun x hx => hk x (by simp [hx]))]
    simp [hk c (by simp)]

/-- strings.Cut at = of a key=value string whose key holds no equals sign. -/
theorem goCutEq_keyval (k v : String) (hk : ∀ c ∈ k.toList, c ≠ '=') :
    goCutEq (k ++ "=" ++ v) = (k, v) := by
  have hdata : (k ++ "=" ++ v).toList = k.toList ++ '=' :: v.toList := by
    simp [String.toList]
  simp only [goCutEq, hdata, cutAux_no_eq k.toList v.toList hk]
  exact Prod.ext (String.asString_toList k) (String.asString_toList v)

/-- One key=value step of the splitAttributes token walk, for an unquoted
key and a value that is not double-quote-wrapped. -/
theorem splitAttrAux_pair (f : Nat) (k v : String) (rest : List String)
    (hkb : k.toList.headD ' ' ≠ fs.bquote)
    (hvq : v.toList.headD ' ' ≠ fs.dquote) :
    splitAttrAux (f + 1) (k :: "=" :: v :: rest) =
      (goToUpper k ++ "=" ++ v) :: splitAttrAux f rest := by
  simp only [String.toList, List.headD_eq_head?_getD] at hkb hvq
  simp [splitAttrAux, hkb, hvq]

/-- attrStringToMap of a VECTOR index whose attribute string tokenizes into
two unquoted key=value pairs: the defaults are inserted first and the two
normalized pairs after them. -/
theorem attrMap_two_tokens (idx2 : Index) (k1 v1 k2 v2 K1 V1 K2 V2 : String)
    (hvec : idx2.Type_ = "VECTOR") (hne : idx2.Attributes ≠ "")
    (htok : TokenizeString idx2.Attributes = [k1, "=", v1, k2, "=", v2])
    (hk1b : k1.toList.headD ' ' ≠ fs.bquote)
    (hk2b : k2.toList.headD ' ' ≠ fs.bquote)
    (hv1q : ¬ (v1.toList.headD ' ' = fs.squote ∨ v1.toList.headD ' ' = fs.dquote ∨
               v1.toList.headD ' ' = fs.bquote))
    (hv2q : ¬ (v2.toList.headD ' ' = fs.squote ∨ v2.toList.headD ' ' = fs.dquote ∨
               v2.toList.headD ' ' = fs.bquote))
    (hk1 : goToUpper k1 = K1) (hv1 : goToLower v1 = V1)
    (hk2 : goToUpper k2 = K2) (hv2 : goToLower v2 = V2)
    (hK1e : ∀ c ∈ K1.toList, c ≠ '=')
    (hK2e : ∀ c ∈ K2.toList, c ≠ '=')
    (hK1n : goToUpper (stripAnyQuote K1) = K1)
    (hK2n : goToUpper (stripAnyQuote K2) = K2) :
    attrStringToMap idx2 =
      mapInsert (mapInsert (mapInsert (mapInsert [] "M" "6") "DISTANCE" "euclidean")
        K1 V1) K2 V2 := by
  have hsplit : splitAttributes idx2.Attributes =
      [goToUpper k1 ++ "=" ++ v1, goToUpper k2 ++ "=" ++ v2] := by
    rw [splitAttributes, if_neg hne, htok]
    rw [show ([k1, "=", v1, k2, "=", v2].length) = 5 + 1 from rfl]
    rw [splitAttrAux_pair 5 k1 v1 _ hk1b (by tauto)]
    rw [show (5 : Nat) = 4 + 1 from rfl]
    rw [splitAttrAux_pair 4 k2 v2 _ hk2b (by tauto)]
    rfl
  rw [attrStringToMap, hsplit]
  simp only [hvec, if_pos rfl]
  simp only [List.foldl, hk1, hk2]
  rw [goCutEq_keyval K1 v1 hK1e, goCutEq_keyval K2 v2 hK2e]
  simp only [stripAnyQuote_id v1 hv1q, stripAnyQuote_id v2 hv2q, hv1, hv2, hK1n, hK2n,
    if_true]

end tengo

/-- C8: a non-nil VECTOR index with an empty Attributes string is Equivalent
to an otherwise-identical VECTOR index whose attribute string states M=6 and
DISTANCE=euclidean explicitly, in either attribute order and in any key or
value casing: the omitted vector attributes are compared as if the defaults
were present. -/
theorem claim_C8 (idx : tengo.Index) (s k1 v1 k2 v2 : String)
    (hvec : idx.Type_ = "VECTOR")
    (hattr : idx.Attributes = "")
    (hsne : s ≠ "")
    (htok : tengo.TokenizeString s = [k1, "=", v1, k2, "=", v2] ∨
            tengo.TokenizeString s = [k2, "=", v2, k1, "=", v1])
    (hk1b : k1.toList.headD ' ' ≠ fs.bquote)
    (hk2b : k2.toList.headD ' ' ≠ fs.bquote)
    (hv1q : ¬ (v1.toList.headD ' ' = fs.squote ∨ v1.toList.headD ' ' = fs.dquote ∨
               v1.toList.headD ' ' = fs.bquote))
    (hv2q : ¬ (v2.toList.headD ' ' = fs.squote ∨ v2.toList.headD ' ' = fs.dquote ∨
               v2.toList.headD ' ' = fs.bquote))
    (hk1 : tengo.goToUpper k1 = "M") (hv1 : tengo.goToLower v1 = "6")
    (hk2 : tengo.goToUpper k2 = "DISTANCE") (hv2 : tengo.goToLower v2 = "euclidean") :
    tengo.Equivalent (some idx) (some { idx with Attributes := s }) = true := by
  have hsp : tengo.sameParts idx { idx with Attributes := s } = true :=
    (tengo.sameParts_eq_iff _ _).mpr rfl
  have hmap1 : tengo.attrStringToMap idx =
      tengo.mapInsert (tengo.mapInsert [] "M" "6") "DISTANCE" "euclidean" := by
    rw [tengo.attrStringToMap, hattr]
    simp only [hvec, if_pos rfl]
    rw [tengo.splitAttributes, if_pos rfl]
    rfl
  have hmap2 : tengo.attrStringToMap { idx with Attributes := s } =
      tengo.mapInsert (tengo.mapInsert (tengo.mapInsert (tengo.mapInsert [] "M" "6")
        "DISTANCE" "euclidean") "M" "6") "DISTANCE" "euclidean" ∨
      tengo.attrStringToMap { idx with Attributes := s } =
      tengo.mapInsert (tengo.mapInsert (tengo.mapInsert (tengo.mapInsert [] "M" "6")
        "DISTANCE" "euclidean") "DISTANCE" "euclidean") "M" "6" := by
    rcases htok with h | h
    · exact Or.inl (tengo.attrMap_two_tokens _ k1 v1 k2 v2 "M" "6" "DISTANCE" "euclidean"
        hvec hsne h hk1b hk2b hv1q hv2q hk1 hv1 hk2 hv2
        (by decide) (by decide) (by decide) (by decide))
    · exact Or.inr (tengo.attrMap_two_tokens _ k2 v2 k1 v1 "DISTANCE" "euclidean" "M" "6"
        hvec hsne h hk2b hk1b hv2q hv1q hk2 hv2 hk1 hv1
        (by decide) (by decide) (by decide) (by decide))
  have hsa : tengo.sameAttributes idx { idx with Attributes := s } = true := by
    rw [tengo.sameAttributes, if_neg]
    · rcases hmap2 with h | h <;> rw [hmap1, h] <;> decide
    · rw [hattr]
      exact fun hc => hsne hc.symm
  rw [tengo.Equivalent, if_neg]
  · rw [hsp, hsa]
    rfl
  · simp

/-- C8 witness: the defaulting statement applied to the VECTOR fixture and
the attribute string distance=Euclidean m=6, which reverses the attribute
order and varies key and value casing. -/
theorem claim_C8_witness :
    tengo.Equivalent (some tengo.vecA)
      (some { tengo.vecA with Attributes := "distance=Euclidean m=6" }) = true :=
  claim_C8 tengo.vecA "distance=Euclidean m=6" "m" "6" "distance" "Euclidean"
    rfl rfl (by decide) (by decide) (by decide) (by decide) (by decide) (by decide)
    (by decide) (by decide) (by decide) (by decide)
namespace tengo

theorem tailD_concat (l : List Int) (c : Int) : tailD (l ++ [c]) = c := by
  simp [tailD]

theorem tailD_mem : ∀ {l : List Int}, l ≠ [] → tailD l ∈ l := by
  intro l
  induction l with
  | nil => intro h; exact absurd rfl h
  | cons a t ih =>
    intro _
    cases t with
    | nil => simp [tailD]
    | cons b u =>
      have htl : tailD (a :: b :: u) = tailD (b :: u) := by
        simp [tailD, List.getLastD]
      rw [htl]
      exact List.mem_cons_of_mem a (ih (by simp))

theorem mem_le_tailD : ∀ {l : List Int}, List.Sorted (· < ·) l → ∀ {y : Int}, y ∈ l → y ≤ tailD l := by
  intro l
  induction l with
  | nil => intro _ y hy; cases hy
  | cons a t ih =>
    intro hs y hy
    cases t with
    | nil =>
      simp at hy
      simp [hy, tailD]
    | cons b u =>
      have hs' := (List.sorted_cons.mp hs).2
      have htl : tailD (a :: b :: u) = tailD (b :: u) := by
        simp [tailD, List.getLastD]
      rcases List.mem_cons.mp hy with rfl | hmem
      · have hab : y < b := (List.sorted_cons.mp hs).1 b (by simp)
        have hb := ih hs' (List.mem_cons_self b u)
        rw [htl]
        omega
      · rw [htl]
        exact ih hs' hmem

theorem sorted_concat {l : List Int} {c : Int} (hs : List.Sorted (· < ·) l)
    (hlt : tailD l < c) : List.Sorted (· < ·) (l ++ [c]) := by
  refine List.pairwise_append.mpr ⟨hs, by simp, ?_⟩
  intro a ha b hb
  simp only [List.mem_singleton] at hb
  subst hb
  exact lt_of_le_of_lt (mem_le_tailD hs ha) hlt

theorem sublist_concat_cases {s l : List Int} {c : Int} (h : s.Sublist (l ++ [c])) :
    s.Sublist l ∨ ∃ t, t.Sublist l ∧ s = t ++ [c] := by
  rcases List.sublist_append_iff.mp h with ⟨s1, s2, rfl, h1, h2⟩
  rcases List.sublist_singleton.mp h2 with rfl | rfl
  · left; simpa using h1
  · right; exact ⟨s1, h1, rfl⟩

theorem set_append_last (src : List Int) (d c : Int) :
    (src ++ [d]).set src.length c = src ++ [c] := by
  rw [List.set_append_right _ _ (le_refl src.length)]
  simp

theorem goCopy_setLast {dst src : List Int} (c : Int) (h : dst.length = src.length + 1) :
    setLast (goCopy dst src) c = src ++ [c] := by
  have h1 : goCopy dst src = src ++ dst.drop src.length := by
    unfold goCopy
    rw [h, List.take_of_length_le (by omega), min_eq_left (by omega)]
  have h2 : (dst.drop src.length).length = 1 := by
    rw [List.length_drop, h]; omega
  rcases List.length_eq_one.mp h2 with ⟨d, hd⟩
  rw [setLast, h1, hd]
  have h3 : (src ++ [d]).length - 1 = src.length := by simp
  rw [h3, set_append_last]

theorem getD_set_eq {cls : List (List Int)} {k : Nat} {v : List Int} (hk : k < cls.length) :
    (cls.set k v).getD k [] = v := by
  simp [List.getD_eq_getElem?_getD, List.getElem?_set_self hk]

theorem getD_set_ne {cls : List (List Int)} {k i : Nat} {v : List Int} (hne : k ≠ i) :
    (cls.set k v).getD i [] = cls.getD i [] := by
  simp [List.getD_eq_getElem?_getD, List.getElem?_set_ne hne]

theorem getD_append_lt {cls : List (List Int)} {l : List Int} {i : Nat} (hi : i < cls.length) :
    (cls ++ [l]).getD i [] = cls.getD i [] := by
  simp [List.getD_eq_getElem?_getD, List.getElem?_append, hi]

theorem getD_append_len {cls : List (List Int)} {l : List Int} :
    (cls ++ [l]).getD cls.length [] = l := by
  simp [List.getD_eq_getElem?_getD, List.getElem?_concat_length]

theorem getLastD_eq_getD {cls : List (List Int)} :
    cls.getLastD [] = cls.getD (cls.length - 1) [] := by
  rw [List.getLastD_eq_getLast?, List.getLast?_eq_getElem?, List.getD_eq_getElem?_getD]

end tengo

namespace tengo

theorem tails_mono_le {seen : List Int} {cls : List (List Int)} (h : LisInv seen cls)
    {i j : Nat} (hij : i ≤ j) (hj : j < cls.length) :
    tailD (cls.getD i []) ≤ tailD (cls.getD j []) := by
  rcases Nat.eq_or_lt_of_le hij with rfl | hlt
  · exact le_refl _
  · exact le_of_lt (h.tails i j hlt hj)

theorem lisScan_spec (cls : List (List Int)) (comp : Int) :
    ∀ j, j + 1 < cls.length →
      (∀ k, j < k → k < cls.length → comp ≤ tailD (cls.getD k [])) →
      ((∀ k, k < cls.length → comp ≤ tailD (cls.getD k [])) ∧
        lisScan cls comp j = cls) ∨
      (∃ i, i ≤ j ∧ tailD (cls.getD i []) < comp ∧
        (∀ k, i < k → k < cls.length → comp ≤ tailD (cls.getD k [])) ∧
        lisScan cls comp j = lisUpdate cls comp i) := by
  intro j
  induction j with
  | zero =>
    intro hj htop
    by_cases hc : tailD (cls.getD 0 []) < comp
    · right
      exact ⟨0, le_refl 0, hc, fun k hk hk2 => htop k hk hk2,
        by simp only [lisScan]; rw [if_pos hc]⟩
    · left
      refine ⟨?_, by simp only [lisScan]; rw [if_neg hc]⟩
      intro k hk
      rcases Nat.eq_zero_or_pos k with rfl | hpos
      · omega
      · exact htop k hpos hk
  | succ j ih =>
    intro hj htop
    by_cases hc : tailD (cls.getD (j + 1) []) < comp
    · right
      exact ⟨j + 1, le_refl _, hc, fun k hk hk2 => htop k hk hk2,
        by simp only [lisScan]; rw [if_pos hc]⟩
    · have htop' : ∀ k, j < k → k < cls.length → comp ≤ tailD (cls.getD k []) := by
        intro k hk1 hk2
        rcases Nat.lt_or_ge k (j + 2) with hk3 | hk3
        · have : k = j + 1 := by omega
          subst this
          omega
        · exact htop k (by omega) hk2
      have hscan : lisScan cls comp (j + 1) = lisScan cls comp j := by
        simp only [lisScan]; rw [if_neg hc]
      rcases ih (by omega) htop' with ⟨hall, heq⟩ | ⟨i, hij, hlt, hmax, heq⟩
      · left; exact ⟨hall, by rw [hscan, heq]⟩
      · right; exact ⟨i, by omega, hlt, hmax, by rw [hscan, heq]⟩

end tengo

namespace tengo

theorem sorted_concat_parts {t : List Int} {c : Int}
    (h : List.Sorted (· < ·) (t ++ [c])) :
    List.Sorted (· < ·) t ∧ (t ≠ [] → tailD t < c) := by
  have hp := List.pairwise_append.mp h
  exact ⟨hp.1, fun htn => hp.2.2 (tailD t) (tailD_mem htn) c (by simp)⟩

theorem ext_tail_ge_head {seen : List Int} {cls : List (List Int)}
    (h : LisInv seen cls) {t : List Int} (ht : t.Sublist seen)
    (hts : List.Sorted (· < ·) t) (htn : t ≠ []) :
    tailD (cls.getD 0 []) ≤ tailD t := by
  have hmt := h.minTail t ht hts htn
  have hlenle := h.best t ht hts
  have hpos : 0 < t.length := List.length_pos.mpr htn
  have hlen0 : 0 < cls.length := List.length_pos.mpr h.ne
  have hmono : tailD (cls.getD 0 []) ≤ tailD (cls.getD (t.length - 1) []) :=
    tails_mono_le h (Nat.zero_le _) (by omega)
  exact le_trans hmono hmt

theorem lisInv_case_lt {seen : List Int} {cls : List (List Int)} {c t0 : Int}
    (h : LisInv seen cls) (ht0 : cls.getD 0 [] = [t0]) (hc : c < t0) :
    LisInv (seen ++ [c]) (cls.set 0 [c]) := by
  have hlen0 : 0 < cls.length := List.length_pos.mpr h.ne
  have htail0 : tailD (cls.getD 0 []) = t0 := by rw [ht0]; simp [tailD]
  refine ⟨?_, ?_, ?_, ?_, ?_, ?_, ?_⟩
  · intro hnil
    have h2 : (cls.set 0 [c]).length = 0 := by rw [hnil]; rfl
    rw [List.length_set] at h2
    omega
  · intro i hi
    rw [List.length_set] at hi
    rcases Nat.eq_zero_or_pos i with rfl | hpos
    · rw [getD_set_eq hlen0]; rfl
    · rw [getD_set_ne (by omega)]; exact h.len i hi
  · intro i hi
    rw [List.length_set] at hi
    rcases Nat.eq_zero_or_pos i with rfl | hpos
    · rw [getD_set_eq hlen0]; simp
    · rw [getD_set_ne (by omega)]; exact h.sorted i hi
  · intro i hi
    rw [List.length_set] at hi
    rcases Nat.eq_zero_or_pos i with rfl | hpos
    · rw [getD_set_eq hlen0]
      exact List.sublist_append_right seen [c]
    · rw [getD_set_ne (by omega)]
      exact (h.sub i hi).trans (List.sublist_append_left seen [c])
  · intro i j hij hj
    rw [List.length_set] at hj
    rcases Nat.eq_zero_or_pos i with rfl | hpos
    · rw [getD_set_eq hlen0, getD_set_ne (by omega : (0 : Nat) ≠ j)]
      have h1 : t0 < tailD (cls.getD j []) := htail0 ▸ h.tails 0 j hij hj
      have h2 : tailD [c] = c := by simp [tailD]
      omega
    · rw [getD_set_ne (by omega : (0 : Nat) ≠ i), getD_set_ne (by omega : (0 : Nat) ≠ j)]
      exact h.tails i j hij hj
  · intro s hsub hsort
    rw [List.length_set]
    rcases sublist_concat_cases hsub with h1 | ⟨t, ht, rfl⟩
    · exact h.best s h1 hsort
    · obtain ⟨hts, htc⟩ := sorted_concat_parts hsort
      by_cases htn : t = []
      · subst htn; simpa using hlen0
      · exfalso
        have h1 := ext_tail_ge_head h ht hts htn
        rw [htail0] at h1
        have h2 := htc htn
        omega
  · intro s hsub hsort hne
    rcases sublist_concat_cases hsub with h1 | ⟨t, ht, rfl⟩
    · have hmt := h.minTail s h1 hsort hne
      rcases Nat.eq_zero_or_pos (s.length - 1) with hz | hpos
      · rw [hz] at hmt ⊢
        rw [getD_set_eq hlen0]
        rw [htail0] at hmt
        have h2 : tailD [c] = c := by simp [tailD]
        omega
      · rw [getD_set_ne (by omega)]
        exact hmt
    · obtain ⟨hts, htc⟩ := sorted_concat_parts hsort
      by_cases htn : t = []
      · subst htn
        simp only [List.nil_append]
        have hl1 : ([c] : List Int).length - 1 = 0 := by simp
        rw [hl1, getD_set_eq hlen0]
      · exfalso
        have h1 := ext_tail_ge_head h ht hts htn
        rw [htail0] at h1
        have h2 := htc htn
        omega

end tengo

namespace tengo

theorem lisInv_case_append {seen : List Int} {cls : List (List Int)} {c : Int}
    (h : LisInv seen cls)
    (hle : tailD (cls.getD 0 []) ≤ c)
    (hc : tailD (cls.getD (cls.length - 1) []) < c) :
    LisInv (seen ++ [c]) (cls ++ [cls.getD (cls.length - 1) [] ++ [c]]) := by
  have hlen0 : 0 < cls.length := List.length_pos.mpr h.ne
  have hlastlen : (cls.getD (cls.length - 1) []).length = cls.length := by
    have := h.len (cls.length - 1) (by omega)
    omega
  have hlenapp : (cls ++ [cls.getD (cls.length - 1) [] ++ [c]]).length = cls.length + 1 := by
    simp
  refine ⟨by simp, ?_, ?_, ?_, ?_, ?_, ?_⟩
  · intro i hi
    rw [hlenapp] at hi
    rcases Nat.lt_or_ge i cls.length with hlt | hge
    · rw [getD_append_lt hlt]; exact h.len i hlt
    · have hieq : i = cls.length := by omega
      subst hieq
      rw [getD_append_len, List.length_append, hlastlen]
      rfl
  · intro i hi
    rw [hlenapp] at hi
    rcases Nat.lt_or_ge i cls.length with hlt | hge
    · rw [getD_append_lt hlt]; exact h.sorted i hlt
    · have hieq : i = cls.length := by omega
      subst hieq
      rw [getD_append_len]
      exact sorted_concat (h.sorted (cls.length - 1) (by omega)) hc
  · intro i hi
    rw [hlenapp] at hi
    rcases Nat.lt_or_ge i cls.length with hlt | hge
    · rw [getD_append_lt hlt]
      exact (h.sub i hlt).trans (List.sublist_append_left seen [c])
    · have hieq : i = cls.length := by omega
      subst hieq
      rw [getD_append_len]
      exact (h.sub (cls.length - 1) (by omega)).append (List.Sublist.refl [c])
  · intro i j hij hj
    rw [hlenapp] at hj
    rcases Nat.lt_or_ge j cls.length with hlt | hge
    · rw [getD_append_lt hlt, getD_append_lt (by omega)]
      exact h.tails i j hij hlt
    · have hjeq : j = cls.length := by omega
      subst hjeq
      rw [getD_append_len, getD_append_lt (by omega), tailD_concat]
      exact lt_of_le_of_lt (tails_mono_le h (by omega) (by omega)) hc
  · intro s hsub hsort
    rw [hlenapp]
    rcases sublist_concat_cases hsub with h1 | ⟨t, ht, rfl⟩
    · have := h.best s h1 hsort
      omega
    · obtain ⟨hts, _⟩ := sorted_concat_parts hsort
      have := h.best t ht hts
      simp
      omega
  · intro s hsub hsort hne
    rcases sublist_concat_cases hsub with h1 | ⟨t, ht, rfl⟩
    · have hmt := h.minTail s h1 hsort hne
      have hsl := h.best s h1 hsort
      have hpos : 0 < s.length := List.length_pos.mpr hne
      rw [getD_append_lt (by omega)]
      exact hmt
    · obtain ⟨hts, htc⟩ := sorted_concat_parts hsort
      have hlen1 : (t ++ [c]).length - 1 = t.length := by simp
      rw [hlen1, tailD_concat]
      by_cases htn : t = []
      · subst htn
        simp only [List.length_nil]
        rw [getD_append_lt hlen0]
        exact hle
      · have htl := h.best t ht hts
        rcases Nat.lt_or_ge t.length cls.length with hlt | hge
        · rw [getD_append_lt hlt]
          exact le_of_lt (lt_of_le_of_lt (tails_mono_le h (by omega) (by omega)) hc)
        · have heq : t.length = cls.length := by omega
          rw [heq, getD_append_len, tailD_concat]

end tengo

namespace tengo

theorem lisInv_case_nochange {seen : List Int} {cls : List (List Int)} {c : Int}
    (h : LisInv seen cls)
    (hle : tailD (cls.getD 0 []) ≤ c)
    (hall : ∀ k, k < cls.length → c ≤ tailD (cls.getD k [])) :
    LisInv (seen ++ [c]) cls := by
  have hlen0 : 0 < cls.length := List.length_pos.mpr h.ne
  refine ⟨h.ne, h.len, h.sorted, ?_, h.tails, ?_, ?_⟩
  · intro i hi
    exact (h.sub i hi).trans (List.sublist_append_left seen [c])
  · intro s hsub hsort
    rcases sublist_concat_cases hsub with h1 | ⟨t, ht, rfl⟩
    · exact h.best s h1 hsort
    · obtain ⟨hts, htc⟩ := sorted_concat_parts hsort
      by_cases htn : t = []
      · subst htn; simpa using hlen0
      · exfalso
        have hmt := h.minTail t ht hts htn
        have htl := h.best t ht hts
        have hpos : 0 < t.length := List.length_pos.mpr htn
        have := hall (t.length - 1) (by omega)
        have := htc htn
        omega
  · intro s hsub hsort hne
    rcases sublist_concat_cases hsub with h1 | ⟨t, ht, rfl⟩
    · exact h.minTail s h1 hsort hne
    · obtain ⟨hts, htc⟩ := sorted_concat_parts hsort
      rw [tailD_concat]
      by_cases htn : t = []
      · subst htn
        simpa using hle
      · exfalso
        have hmt := h.minTail t ht hts htn
        have htl := h.best t ht hts
        have hpos : 0 < t.length := List.length_pos.mpr htn
        have := hall (t.length - 1) (by omega)
        have := htc htn
        omega

theorem lisInv_case_update {seen : List Int} {cls : List (List Int)} {c : Int} {i : Nat}
    (h : LisInv seen cls)
    (hle : tailD (cls.getD 0 []) ≤ c)
    (hi1 : i + 1 < cls.length)
    (hlt : tailD (cls.getD i []) < c)
    (hmax : ∀ k, i < k → k < cls.length → c ≤ tailD (cls.getD k [])) :
    LisInv (seen ++ [c]) (cls.set (i + 1) (cls.getD i [] ++ [c])) := by
  have hlen0 : 0 < cls.length := List.length_pos.mpr h.ne
  have hci1 : c ≤ tailD (cls.getD (i + 1) []) := hmax (i + 1) (by omega) hi1
  have hlen_i : (cls.getD i []).length = i + 1 := h.len i (by omega)
  refine ⟨?_, ?_, ?_, ?_, ?_, ?_, ?_⟩
  · intro hnil
    have h2 : (cls.set (i + 1) (cls.getD i [] ++ [c])).length = 0 := by rw [hnil]; rfl
    rw [List.length_set] at h2
    omega
  · intro j hj
    rw [List.length_set] at hj
    by_cases hji : j = i + 1
    · subst hji
      rw [getD_set_eq hi1, List.length_append, hlen_i]
      rfl
    · rw [getD_set_ne (fun hh => hji hh.symm)]
      exact h.len j hj
  · intro j hj
    rw [List.length_set] at hj
    by_cases hji : j = i + 1
    · subst hji
      rw [getD_set_eq hi1]
      exact sorted_concat (h.sorted i (by omega)) hlt
    · rw [getD_set_ne (fun hh => hji hh.symm)]
      exact h.sorted j hj
  · intro j hj
    rw [List.length_set] at hj
    by_cases hji : j = i + 1
    · subst hji
      rw [getD_set_eq hi1]
      exact (h.sub i (by omega)).append (List.Sublist.refl [c])
    · rw [getD_set_ne (fun hh => hji hh.symm)]
      exact (h.sub j hj).trans (List.sublist_append_left seen [c])
  · intro a b hab hb
    rw [List.length_set] at hb
    by_cases hai : a = i + 1
    · subst hai
      by_cases hbi : b = i + 1
      · omega
      · rw [getD_set_eq hi1, getD_set_ne (fun hh => hbi hh.symm), tailD_concat]
        exact lt_of_le_of_lt hci1 (h.tails (i + 1) b (by omega) hb)
    · by_cases hbi : b = i + 1
      · subst hbi
        rw [getD_set_eq hi1, getD_set_ne (fun hh => hai hh.symm), tailD_concat]
        exact lt_of_le_of_lt (tails_mono_le h (by omega) (by omega)) hlt
      · rw [getD_set_ne (fun hh => hai hh.symm), getD_set_ne (fun hh => hbi hh.symm)]
        exact h.tails a b hab hb
  · intro s hsub hsort
    rw [List.length_set]
    rcases sublist_concat_cases hsub with h1 | ⟨t, ht, rfl⟩
    · exact h.best s h1 hsort
    · obtain ⟨hts, htc⟩ := sorted_concat_parts hsort
      by_cases htn : t = []
      · subst htn; simpa using hlen0
      · have htl := h.best t ht hts
        have hpos : 0 < t.length := List.length_pos.mpr htn
        have hne2 : t.length ≠ cls.length := by
          intro heq
          have hmt := h.minTail t ht hts htn
          have h2 := hmax (cls.length - 1) (by omega) (by omega)
          have h3 := htc htn
          rw [heq] at hmt
          omega
        simp
        omega
  · intro s hsub hsort hne
    rcases sublist_concat_cases hsub with h1 | ⟨t, ht, rfl⟩
    · have hmt := h.minTail s h1 hsort hne
      have hpos : 0 < s.length := List.length_pos.mpr hne
      by_cases hsi : s.length - 1 = i + 1
      · rw [hsi] at hmt ⊢
        rw [getD_set_eq hi1, tailD_concat]
        exact le_trans hci1 hmt
      · rw [getD_set_ne (fun hh => hsi hh.symm)]
        exact hmt
    · obtain ⟨hts, htc⟩ := sorted_concat_parts hsort
      have hlen1 : (t ++ [c]).length - 1 = t.length := by simp
      rw [hlen1, tailD_concat]
      by_cases htn : t = []
      · subst htn
        simp only [List.length_nil]
        rw [getD_set_ne (by omega)]
        exact hle
      · have htl := h.best t ht hts
        have hpos : 0 < t.length := List.length_pos.mpr htn
        have hti : t.length - 1 ≤ i := by
          by_contra hcon
          have h2 := hmax (t.length - 1) (by omega) (by omega)
          have h3 := htc htn
          have hmt := h.minTail t ht hts htn
          omega
        by_cases hteq : t.length = i + 1
        · rw [hteq, getD_set_eq hi1, tailD_concat]
        · rw [getD_set_ne (fun hh => hteq hh.symm)]
          have h4 : t.length ≤ i := by omega
          exact le_of_lt (lt_of_le_of_lt (tails_mono_le h h4 (by omega)) hlt)

end tengo

namespace tengo

theorem lisStep_inv {seen : List Int} {cls : List (List Int)} (c : Int)
    (h : LisInv seen cls) : LisInv (seen ++ [c]) (lisStep cls c) := by
  have hlen0 : 0 < cls.length := List.length_pos.mpr h.ne
  obtain ⟨t0, ht0⟩ := List.length_eq_one.mp (h.len 0 hlen0)
  have hhead : (cls.getD 0 []).headD 0 = t0 := by rw [ht0]; rfl
  have htail0 : tailD (cls.getD 0 []) = t0 := by rw [ht0]; simp [tailD]
  have hlast : cls.getLastD [] = cls.getD (cls.length - 1) [] := getLastD_eq_getD
  rw [lisStep]
  split_ifs with hb1 hb2 hb3
  · rw [hhead] at hb1
    have hset : (cls.getD 0 []).set 0 c = [c] := by rw [ht0]; rfl
    rw [hset]
    exact lisInv_case_lt h ht0 hb1
  · rw [hhead] at hb1
    rw [hlast] at hb2 ⊢
    rw [goCopy_setLast c (by simp)]
    exact lisInv_case_append h (by rw [htail0]; omega) hb2
  · rw [hhead] at hb1
    rw [hlast] at hb2
    have htop : ∀ k, cls.length - 2 < k → k < cls.length → c ≤ tailD (cls.getD k []) := by
      intro k hk1 hk2
      have hk3 : k = cls.length - 1 := by omega
      subst hk3
      omega
    rcases lisScan_spec cls c (cls.length - 2) (by omega) htop with
      ⟨hall, heq⟩ | ⟨i, hij, hlt, hmax, heq⟩
    · rw [heq]
      exact lisInv_case_nochange h (by rw [htail0]; omega) hall
    · rw [heq, lisUpdate,
        goCopy_setLast c (by rw [h.len (i + 1) (by omega), h.len i (by omega)])]
      exact lisInv_case_update h (by rw [htail0]; omega) (by omega) hlt hmax
  · rw [hhead] at hb1
    rw [hlast] at hb2
    have hall : ∀ k, k < cls.length → c ≤ tailD (cls.getD k []) := by
      intro k hk
      have hk0 : k = 0 := by omega
      subst hk0
      have hl1 : cls.length - 1 = 0 := by omega
      rw [hl1] at hb2
      omega
    exact lisInv_case_nochange h (by rw [htail0]; omega) hall

theorem lisFold_inv : ∀ (rest seen : List Int) (cls : List (List Int)),
    LisInv seen cls → LisInv (seen ++ rest) (rest.foldl lisStep cls) := by
  intro rest
  induction rest with
  | nil => intro seen cls h; simpa using h
  | cons c r ih =>
    intro seen cls h
    have h1 := lisStep_inv c h
    have h2 := ih (seen ++ [c]) (lisStep cls c) h1
    simpa [List.append_assoc] using h2

theorem lisInv_init (x : Int) : LisInv [x] [[x]] := by
  refine ⟨by simp, ?_, ?_, ?_, ?_, ?_, ?_⟩
  · intro i hi
    simp at hi
    subst hi
    rfl
  · intro i hi
    simp at hi
    subst hi
    simp
  · intro i hi
    simp at hi
    subst hi
    simp
  · intro i j hij hj
    simp at hj
    omega
  · intro s hsub _
    have := hsub.length_le
    simpa using this
  · intro s hsub _ hne
    rcases List.sublist_singleton.mp hsub with rfl | rfl
    · exact absurd rfl hne
    · simp [tailD]

end tengo

namespace tengo

/-- C9 amended: for every input list of integers,
longestIncreasingSubsequence returns a longest strictly increasing
subsequence of that list — a strictly increasing sublist of maximal length
among all strictly increasing sublists — and for every input of length
less than 2 it returns the input unchanged. -/
theorem claim_C9 (input : List Int) :
    (longestIncreasingSubsequence input).Sublist input ∧
    List.Sorted (· < ·) (longestIncreasingSubsequence input) ∧
    (∀ s : List Int, s.Sublist input → List.Sorted (· < ·) s →
      s.length ≤ (longestIncreasingSubsequence input).length) ∧
    (input.length < 2 → longestIncreasingSubsequence input = input) := by
  by_cases hlen : input.length < 2
  · have heq : longestIncreasingSubsequence input = input := by
      rw [longestIncreasingSubsequence.eq_def, if_pos hlen]
    refine ⟨by rw [heq], ?_, ?_, fun _ => heq⟩
    · rw [heq]
      match input, hlen with
      | [], _ => simp
      | [x], _ => simp
    · intro s hsub _
      rw [heq]
      exact hsub.length_le
  · match input, hlen with
    | x :: rest, hlen =>
      have hdef : longestIncreasingSubsequence (x :: rest) =
          (rest.foldl lisStep [[x]]).getLastD [] := by
        rw [longestIncreasingSubsequence.eq_def, if_neg hlen]
      have hinv : LisInv (x :: rest) (rest.foldl lisStep [[x]]) := by
        have := lisFold_inv rest [x] [[x]] (lisInv_init x)
        simpa using this
      set cls := rest.foldl lisStep [[x]] with hcls
      have hlen0 : 0 < cls.length := List.length_pos.mpr hinv.ne
      have hres : longestIncreasingSubsequence (x :: rest) =
          cls.getD (cls.length - 1) [] := by
        rw [hdef, getLastD_eq_getD]
      have hreslen : (longestIncreasingSubsequence (x :: rest)).length = cls.length := by
        rw [hres]
        have := hinv.len (cls.length - 1) (by omega)
        omega
      refine ⟨?_, ?_, ?_, fun hcon => absurd hcon hlen⟩
      · rw [hres]
        exact hinv.sub (cls.length - 1) (by omega)
      · rw [hres]
        exact hinv.sorted (cls.length - 1) (by omega)
      · intro s hsub hsort
        rw [hreslen]
        exact hinv.best s hsub hsort

end tengo

/-- C9 counterexample: on input [2, 2] the function returns [2], while
[2, 2] itself is a non-decreasing subsequence of the input of greater
length, so the result is not a longest non-decreasing subsequence. -/
theorem claim_C9_counterexample :
    tengo.longestIncreasingSubsequence [2, 2] = [2] ∧
    ([2, 2] : List Int).Sublist [2, 2] ∧
    List.Sorted (· ≤ ·) ([2, 2] : List Int) ∧
    ¬ (([2, 2] : List Int).length ≤ (tengo.longestIncreasingSubsequence [2, 2]).length) :=
  ⟨by decide, List.Sublist.refl _, by decide, by decide⟩

/-- C9 witness: the amended statement applied at [3, 1, 2] (whose longest
strictly increasing subsequence has length 2) and at the singleton [7]. -/
theorem claim_C9_witness :
    (tengo.longestIncreasingSubsequence [3, 1, 2]).Sublist [3, 1, 2] ∧
    List.Sorted (· < ·) (tengo.longestIncreasingSubsequence [3, 1, 2]) ∧
    ([1, 2] : List Int).length ≤ (tengo.longestIncreasingSubsequence [3, 1, 2]).length ∧
    tengo.longestIncreasingSubsequence [7] = [7] :=
  ⟨(tengo.claim_C9 [3, 1, 2]).1, (tengo.claim_C9 [3, 1, 2]).2.1,
   (tengo.claim_C9 [3, 1, 2]).2.2.1 [1, 2] (by decide) (by decide),
   (tengo.claim_C9 [7]).2.2.2 (by decide)⟩
